import Mathlib

/-!
Verification of the strategy-research repository: indicator engine
(SMA / ATR / ADX / Donchian channels), the per-bar signal and risk
engine shared by `FinalLowDrawdownStrategy` and `RiskManagedStrategy`,
and the optimizer objective `optim_func`.

Prices and indicator values are embedded as exact rationals; a pandas
NaN is `Option.none`.  Comparisons against NaN are `false` and
arithmetic on NaN propagates NaN, matching float semantics.  Python
`int()` truncates toward zero; raising (for example `int(nan)`) is an
`Except.error`.
-/

/-- Python `int()` applied to a float: truncation toward zero. -/
def pyInt (q : ℚ) : ℤ :=
  q.num.tdiv q.den

/-- Subtraction lifted to NaN-able values; NaN propagates. -/
def optSub : Option ℚ → Option ℚ → Option ℚ
  | some x, some y => some (x - y)
  | _, _ => none

/-- Addition lifted to NaN-able values; NaN propagates. -/
def optAdd : Option ℚ → Option ℚ → Option ℚ
  | some x, some y => some (x + y)
  | _, _ => none

/-- Division lifted to NaN-able values.  NaN propagates; a zero
divisor is modelled as an undefined result.  (IEEE floats would give
`inf` or `nan` here; the ADX region where this matters is outside
every claim proved below.) -/
def optDiv : Option ℚ → Option ℚ → Option ℚ
  | some x, some y => if y = 0 then none else some (x / y)
  | _, _ => none

/-- Absolute value lifted to NaN-able values. -/
def optAbs (o : Option ℚ) : Option ℚ :=
  o.map (fun x => |x|)

/-- Python comparison `x > o` where `o` may be NaN: false on NaN. -/
def pyGtSome (x : ℚ) (o : Option ℚ) : Bool :=
  match o with
  | some v => decide (v < x)
  | none => false

/-- Python comparison `x < o` where `o` may be NaN: false on NaN. -/
def pyLtSome (x : ℚ) (o : Option ℚ) : Bool :=
  match o with
  | some v => decide (x < v)
  | none => false

/-- pandas `Series.shift(1)`: every value moves one position later, the
first position becomes NaN, the last value drops off. -/
def shift1 (l : List (Option ℚ)) : List (Option ℚ) :=
  match l with
  | [] => []
  | _ :: _ => none :: l.dropLast

/-- The trailing window of (up to) `n` positions ending at position `i`. -/
def windowAt (xs : List (Option ℚ)) (n i : ℕ) : List (Option ℚ) :=
  (xs.take (i + 1)).drop (i + 1 - n)

/-- Collects a window into `some` list of plain values, or `none` if
any position of the window is NaN. -/
def seqSome : List (Option ℚ) → Option (List ℚ)
  | [] => some []
  | none :: _ => none
  | some x :: t => (seqSome t).map (fun ys => x :: ys)

/-- pandas `Series.rolling(n)` followed by an aggregation `g`: position
`i` holds `g` of the trailing `n` values, NaN while fewer than `n`
positions exist or any value in the window is NaN (the default
`min_periods` equals the window size). -/
def rollingOp (g : List ℚ → ℚ) (n : ℕ) (xs : List (Option ℚ)) : List (Option ℚ) :=
  (List.range xs.length).map
    (fun i => if i + 1 < n then none else (seqSome (windowAt xs n i)).map g)

/-- Fold of a binary operation over a nonempty list, used for the
rolling max and min of the Donchian channels. -/
def listFold (f : ℚ → ℚ → ℚ) : List ℚ → ℚ
  | [] => 0
  | h :: t => t.foldl f h

/-- One OHLC bar; only the columns the indicators read. -/
structure Bar where
  High : ℚ
  Low : ℚ
  Close : ℚ

/-- `SMA(values, n)` from the source: `pd.Series(values).rolling(n).mean()`. -/
def SMA (values : List ℚ) (n : ℕ) : List (Option ℚ) :=
  rollingOp (fun w => w.sum / (n : ℚ)) n (values.map some)

/-- The `close.shift(1)` series of previous closes. -/
def prevClose (bars : List Bar) : List (Option ℚ) :=
  shift1 (bars.map (fun b => some b.Close))

/-- Row-wise `DataFrame.max(axis=1)` over `{high - low, |high - prev_close|,
|low - prev_close|}`.  pandas skips NaN entries, so at position 0 (where
`prev_close` is NaN) the result is plainly `high - low`, not NaN. -/
def skipnaMax3 (x : ℚ) (y z : Option ℚ) : ℚ :=
  max (max x (y.getD x)) (z.getD x)

/-- The true-range series of the source `ATR`: every position is a
defined value because the `high - low` column never is NaN. -/
def trSeries (bars : List Bar) : List ℚ :=
  List.zipWith
    (fun b pc =>
      skipnaMax3 (b.High - b.Low) (pc.map (fun c => |b.High - c|))
        (pc.map (fun c => |b.Low - c|)))
    bars (prevClose bars)

/-- `ATR(df, n)` from the source: trailing-`n` mean of the true range.
The `except` fallback of the source (zero series when a column is
missing) cannot fire in this typed embedding, where every bar carries
all three columns. -/
def ATR (bars : List Bar) (n : ℕ) : List (Option ℚ) :=
  rollingOp (fun w => w.sum / (n : ℚ)) n ((trSeries bars).map some)

/-- Donchian upper channel from the source strategies:
`pd.Series(x).rolling(n).max().shift(1)` on the High column. -/
def donchianHigh (values : List ℚ) (n : ℕ) : List (Option ℚ) :=
  shift1 (rollingOp (listFold max) n (values.map some))

/-- Donchian lower channel from the source strategies:
`pd.Series(x).rolling(n).min().shift(1)` on the Low column. -/
def donchianLow (values : List ℚ) (n : ℕ) : List (Option ℚ) :=
  shift1 (rollingOp (listFold min) n (values.map some))

/-- Directional movement `+DM` of `ADX`: `np.where((up > down) & (up > 0), up, 0)`.
NumPy comparisons with NaN are false, so NaN positions give 0. -/
def posDm (up down : Option ℚ) : ℚ :=
  match up, down with
  | some u, some d => if d < u ∧ 0 < u then u else 0
  | _, _ => 0

/-- Directional movement `-DM` of `ADX`: `np.where((down > up) & (down > 0), down, 0)`. -/
def negDm (up down : Option ℚ) : ℚ :=
  match up, down with
  | some u, some d => if u < d ∧ 0 < d then d else 0
  | _, _ => 0

/-- The `up` series of `ADX`: `high - high.shift(1)`. -/
def adxUp (bars : List Bar) : List (Option ℚ) :=
  List.zipWith optSub (bars.map (fun b => some b.High)) (shift1 (bars.map (fun b => some b.High)))

/-- The `down` series of `ADX`: `low.shift(1) - low`. -/
def adxDown (bars : List Bar) : List (Option ℚ) :=
  List.zipWith optSub (shift1 (bars.map (fun b => some b.Low))) (bars.map (fun b => some b.Low))

/-- The trailing-`n` sum `tr_s` of the true range (`ATR(df, 1)`). -/
def adxTrS (bars : List Bar) (n : ℕ) : List (Option ℚ) :=
  rollingOp List.sum n (ATR bars 1)

/-- The directional index `pos_di = 100 * (pos_dm_s / tr_s)`. -/
def adxPosDi (bars : List Bar) (n : ℕ) : List (Option ℚ) :=
  List.zipWith (fun a b => (optDiv a b).map (fun q => 100 * q))
    (rollingOp List.sum n ((List.zipWith posDm (adxUp bars) (adxDown bars)).map some))
    (adxTrS bars n)

/-- The directional index `neg_di = 100 * (neg_dm_s / tr_s)`. -/
def adxNegDi (bars : List Bar) (n : ℕ) : List (Option ℚ) :=
  List.zipWith (fun a b => (optDiv a b).map (fun q => 100 * q))
    (rollingOp List.sum n ((List.zipWith negDm (adxUp bars) (adxDown bars)).map some))
    (adxTrS bars n)

/-- The `dx` series of `ADX`: `100 * |pos_di - neg_di| / (pos_di + neg_di)`. -/
def adxDx (bars : List Bar) (n : ℕ) : List (Option ℚ) :=
  List.zipWith
    (fun p m => (optDiv (optAbs (optSub p m)) (optAdd p m)).map (fun q => 100 * q))
    (adxPosDi bars n) (adxNegDi bars n)

/-- `ADX(df, n)` from the source, step for step: directional movement,
trailing-`n` sums of `+DM`, `-DM` and true range, directional indices,
`DX`, and a trailing-`n` mean of `DX`. -/
def ADX (bars : List Bar) (n : ℕ) : List (Option ℚ) :=
  rollingOp (fun w => w.sum / (n : ℚ)) n (adxDx bars n)

/-- Strategy parameters.  Both source classes carry exactly these
attributes; only their default values differ. -/
structure Params where
  n_atr : ℕ
  atr_multiplier : ℚ
  ma_period : ℕ
  donchian_period : ℕ
  adx_threshold : ℚ
  risk_per_trade : ℚ

/-- An open trade as the trailing-stop loop sees it. -/
structure Trade where
  is_long : Bool
  sl : ℚ

/-- An entry order emitted by `self.buy` or `self.sell`. -/
structure Order where
  is_buy : Bool
  size : ℤ
  sl : ℚ

/-- Trailing update for a long trade: `new_sl = price - atr * mult`,
adopted only when strictly above the current stop.  A NaN ATR makes
the comparison false, leaving the stop unchanged. -/
def trailLong (price : ℚ) (atr : Option ℚ) (mult : ℚ) (sl : ℚ) : ℚ :=
  match atr with
  | some a => if sl < price - a * mult then price - a * mult else sl
  | none => sl

/-- Trailing update for a short trade: `new_sl = price + atr * mult`,
adopted only when strictly below the current stop. -/
def trailShort (price : ℚ) (atr : Option ℚ) (mult : ℚ) (sl : ℚ) : ℚ :=
  match atr with
  | some a => if price + a * mult < sl then price + a * mult else sl
  | none => sl

/-- One pass of the `for trade in self.trades` loop body. -/
def trailTrade (price : ℚ) (atr : Option ℚ) (mult : ℚ) (t : Trade) : Trade :=
  if t.is_long then { t with sl := trailLong price atr mult t.sl }
  else { t with sl := trailShort price atr mult t.sl }

/-- The position size of the entry block:
`min(int(equity * risk / stop_distance), int(equity * 0.95 / price))`. -/
def entryUnits (equity risk d price : ℚ) : ℤ :=
  min (pyInt (equity * risk / d)) (pyInt (equity * (95 / 100) / price))

/-- Outcome of the `if not self.position` block: either a `return`
statement ran (skipping the trailing loop), or control fell through,
possibly having submitted an order. -/
inductive FlatOut where
  | ret : FlatOut
  | through : Option Order → FlatOut

/-- The `if not self.position` block of `next`, line for line:
zero-stop-distance gate, integer sizing, capital cap, minimum-size
gate, then the long and short breakout entries.  A NaN stop distance
passes the `== 0` test (false), and `int(nan)` then raises, which is
the `error` outcome.  A zero price is outside this model (NumPy would
overflow there); every claim below assumes a positive price. -/
def flatEval (p : Params) (atr dh dl : Option ℚ) (price equity : ℚ)
    (uptrend strong : Bool) : Except Unit FlatOut :=
  let sd := atr.map (fun a => a * p.atr_multiplier)
  if (match sd with | some x => decide (x = 0) | none => false) = true then .ok .ret
  else
    match sd with
    | none => .error ()
    | some d =>
      let units := entryUnits equity p.risk_per_trade d price
      if units < 1 then .ok .ret
      else if uptrend && strong && pyGtSome price dh then
        .ok (.through (some { is_buy := true, size := units, sl := price - d }))
      else if !uptrend && strong && pyLtSome price dl then
        .ok (.through (some { is_buy := false, size := units, sl := price + d }))
      else .ok (.through none)

/-- The warm-up guard of `FinalLowDrawdownStrategy.next`:
`len(self.data) < self.ma_period + 5`. -/
def finalGuard (p : Params) : ℕ :=
  p.ma_period + 5

/-- The warm-up guard of `RiskManagedStrategy.next`:
`len(self.data) < max(self.ma_period, self.donchian_period) + 5`. -/
def riskGuard (p : Params) : ℕ :=
  max p.ma_period p.donchian_period + 5

/-- Every rolling window a strategy instance uses: the trend filter,
the Donchian channel, the ATR window, and the hard-coded ADX window 14. -/
def configuredWindows (p : Params) : List ℕ :=
  [p.ma_period, p.donchian_period, p.n_atr, 14]

/-- One call of `Strategy.next`, shared by both source classes (they
differ only in the `guard` expression and default parameters): warm-up
guard, NaN trend-filter guard, entry evaluation when flat, then the
trailing-stop loop over the open trades.  The result pairs the entry
order (if any) with the updated trade list. -/
def nextStep (guard : ℕ) (p : Params) (dataLen : ℕ) (ma adx atr dh dl : Option ℚ)
    (price equity : ℚ) (flat : Bool) (trades : List Trade) :
    Except Unit (Option Order × List Trade) :=
  if dataLen < guard then .ok (none, trades)
  else if ma.isNone then .ok (none, trades)
  else
    let uptrend := pyGtSome price ma
    let strong := pyLtSome p.adx_threshold adx
    if flat then
      match flatEval p atr dh dl price equity uptrend strong with
      | .error e => .error e
      | .ok .ret => .ok (none, trades)
      | .ok (.through o) => .ok (o, trades.map (trailTrade price atr p.atr_multiplier))
    else .ok (none, trades.map (trailTrade price atr p.atr_multiplier))

/-- The per-run performance fields `optim_func` reads. -/
structure PerfRecord where
  numTrades : ℕ
  maxDrawdownPct : ℚ
  returnPct : ℚ

/-- The optimizer objective `optim_func` of `backtest_runner.py`:
sentinel -1 below 10 trades or below -20 percent drawdown, otherwise
return divided by the absolute drawdown.  A zero drawdown makes that
quotient a division by zero, modelled as an undefined score. -/
def optim_func (s : PerfRecord) : Except Unit ℚ :=
  if s.numTrades < 10 then .ok (-1)
  else if s.maxDrawdownPct < -20 then .ok (-1)
  else if |s.maxDrawdownPct| = 0 then .error ()
  else .ok (s.returnPct / |s.maxDrawdownPct|)

/-- One grid point of the `bt.optimize` call. -/
structure OptParams where
  risk_per_trade : ℚ
  n_atr : ℕ
  atr_multiplier : ℚ
  ma_period : ℕ
  donchian_period : ℕ
  adx_threshold : ℚ

/-- Modelled from the spec: the optimizer grid itself lives in the
external backtesting library, so the Cartesian product of the literal
candidate lists of the `bt.optimize` call is reproduced here in its
enumeration order. -/
def gridConfigs : List OptParams :=
  [1 / 100, 2 / 100, 3 / 100].flatMap (fun r =>
    [(14 : ℕ)].flatMap (fun na =>
      [(3 : ℚ), 4, 5].flatMap (fun m =>
        [(200 : ℕ), 800].flatMap (fun ma =>
          [(50 : ℕ), 100].flatMap (fun dc =>
            [(20 : ℚ), 25].map (fun t => ⟨r, na, m, ma, dc, t⟩))))))

/-- Ranking order on (grid index, score) pairs: higher score first,
ties broken by the earlier grid index. -/
def rankLE (a b : ℕ × ℚ) : Bool :=
  decide (b.2 < a.2 ∨ (a.2 = b.2 ∧ a.1 ≤ b.1))

/-- Modelled from the spec: the ranking step of the optimizer (the
sort inside `bt.optimize` and the `heatmap.sort_values` call are
external library code).  Scores are paired with their grid index and
stably sorted by descending score. -/
def optimRank (scores : List ℚ) : List (ℕ × ℚ) :=
  scores.enum.mergeSort rankLE

/-- The stop prices a long trade takes over a sequence of bars, each
bar given as (close, ATR value): the initial stop followed by one
trailing update per bar. -/
def stopPathLong (mult : ℚ) (sl0 : ℚ) (bars : List (ℚ × Option ℚ)) : List ℚ :=
  bars.scanl (fun sl pb => trailLong pb.1 pb.2 mult sl) sl0

/-- The stop prices a short trade takes over a sequence of bars. -/
def stopPathShort (mult : ℚ) (sl0 : ℚ) (bars : List (ℚ × Option ℚ)) : List ℚ :=
  bars.scanl (fun sl pb => trailShort pb.1 pb.2 mult sl) sl0

lemma pyInt_eq_floor (q : ℚ) (h : 0 ≤ q) : pyInt q = ⌊q⌋ := by
  rw [Rat.floor_def, pyInt]
  exact Int.tdiv_eq_ediv (Rat.num_nonneg.mpr h) (Int.ofNat_nonneg _)

lemma pyInt_nonpos (q : ℚ) (h : q ≤ 0) : pyInt q ≤ 0 := by
  have hn : q.num ≤ 0 := Rat.num_nonpos.mpr h
  have : (0 : ℤ) ≤ (-q.num).tdiv q.den :=
    Int.tdiv_nonneg (by omega) (Int.ofNat_nonneg _)
  have hneg : (-q.num).tdiv q.den = -(q.num.tdiv q.den) := Int.neg_tdiv ..
  rw [pyInt]
  omega

lemma rollingOp_length (g : List ℚ → ℚ) (n : ℕ) (xs : List (Option ℚ)) :
    (rollingOp g n xs).length = xs.length := by
  simp [rollingOp]

lemma rollingOp_getElem? (g : List ℚ → ℚ) (n : ℕ) (xs : List (Option ℚ)) (i : ℕ)
    (h : i < xs.length) :
    (rollingOp g n xs)[i]? =
      some (if i + 1 < n then none else (seqSome (windowAt xs n i)).map g) := by
  simp [rollingOp, List.getElem?_map, List.getElem?_range, h]

lemma seqSome_map_some (l : List ℚ) : seqSome (l.map some) = some l := by
  induction l with
  | nil => rfl
  | cons x t ih => simp [seqSome, ih]

lemma seqSome_eq_none_of_mem {w : List (Option ℚ)} (h : none ∈ w) : seqSome w = none := by
  induction w with
  | nil => cases h
  | cons x t ih =>
    cases x with
    | none => rfl
    | some v =>
      rcases List.mem_cons.mp h with h1 | h2
      · cases h1
      · simp [seqSome, ih h2]

lemma shift1_length (l : List (Option ℚ)) : (shift1 l).length = l.length := by
  cases l with
  | nil => rfl
  | cons x t => simp [shift1]

lemma shift1_getElem?_zero (l : List (Option ℚ)) (h : l ≠ []) :
    (shift1 l)[0]? = some none := by
  cases l with
  | nil => simp at h
  | cons x t => simp [shift1]

lemma shift1_getElem?_succ (l : List (Option ℚ)) (i : ℕ) (h : i + 1 < l.length) :
    (shift1 l)[i + 1]? = l[i]? := by
  cases l with
  | nil => simp at h
  | cons x t =>
    have hi : i < (x :: t).length - 1 := by simp at h ⊢; omega
    simp only [shift1, List.getElem?_cons_succ]
    rw [List.dropLast_eq_take, List.getElem?_take, if_pos hi]

lemma windowAt_map_some (l : List ℚ) (n i : ℕ) :
    windowAt (l.map some) n i = ((l.take (i + 1)).drop (i + 1 - n)).map some := by
  simp [windowAt, List.map_take, List.map_drop]

lemma rollingOp_map_some_getElem? (g : List ℚ → ℚ) (n : ℕ) (l : List ℚ) (i : ℕ)
    (h : i < l.length) :
    (rollingOp g n (l.map some))[i]? =
      some (if i + 1 < n then none
            else some (g ((l.take (i + 1)).drop (i + 1 - n)))) := by
  rw [rollingOp_getElem? g n _ i (by simpa using h), windowAt_map_some, seqSome_map_some]
  rfl

lemma mem_windowAt_of_getElem? {xs : List (Option ℚ)} {o : Option ℚ} {n i j : ℕ}
    (hj : j ≤ i) (hw : i < j + n) (h : xs[j]? = some o) : o ∈ windowAt xs n i := by
  have hwin : (windowAt xs n i)[j - (i + 1 - n)]? = some o := by
    rw [windowAt, List.getElem?_drop, Nat.add_sub_cancel' (by omega : i + 1 - n ≤ j),
      List.getElem?_take, if_pos (by omega : j < i + 1)]
    exact h
  exact List.getElem?_mem hwin

lemma rollingOp_none_of (g : List ℚ → ℚ) (n : ℕ) (xs : List (Option ℚ)) (i j : ℕ)
    (hi : i < xs.length) (hj : j ≤ i) (hw : i < j + n) (h : xs[j]? = some none) :
    (rollingOp g n xs)[i]? = some none := by
  rw [rollingOp_getElem? g n xs i hi]
  by_cases hn : i + 1 < n
  · simp [hn]
  · simp [hn, seqSome_eq_none_of_mem (mem_windowAt_of_getElem? hj hw h)]

lemma trSeries_length (bars : List Bar) : (trSeries bars).length = bars.length := by
  simp [trSeries, prevClose, shift1_length]

lemma listFold_mem (f : ℚ → ℚ → ℚ) (hf : ∀ a b, f a b = a ∨ f a b = b) :
    ∀ (h : ℚ) (t : List ℚ), listFold f (h :: t) ∈ h :: t := by
  intro h t
  induction t generalizing h with
  | nil => simp [listFold]
  | cons x t ih =>
    have := ih (f h x)
    rcases hf h x with h1 | h2
    · simp only [listFold, List.foldl_cons] at this ⊢
      rcases List.mem_cons.mp this with ha | hb
      · exact List.mem_cons.mpr (Or.inl (by rw [ha, h1]))
      · exact List.mem_cons_of_mem _ (List.mem_cons_of_mem _ hb)
    · simp only [listFold, List.foldl_cons] at this ⊢
      rcases List.mem_cons.mp this with ha | hb
      · exact List.mem_cons_of_mem _ (List.mem_cons.mpr (Or.inl (by rw [ha, h2])))
      · exact List.mem_cons_of_mem _ (List.mem_cons_of_mem _ hb)

lemma head?_scanl {α β : Type} (f : β → α → β) (b : β) (l : List α) :
    (List.scanl f b l).head? = some b := by
  cases l <;> simp [List.scanl]

lemma chain_scanl {α β : Type} (R : β → β → Prop) (f : β → α → β)
    (hf : ∀ s x, R s (f s x)) :
    ∀ (l : List α) (s : β), List.Chain' R (List.scanl f s l) := by
  intro l
  induction l with
  | nil => intro s; simp [List.scanl]
  | cons x t ih =>
    intro s
    rw [List.scanl]
    refine List.chain'_cons'.mpr ⟨?_, ih (f s x)⟩
    intro y hy
    rw [head?_scanl] at hy
    cases hy
    exact hf s x

lemma donchianHigh_getElem? (values : List ℚ) (n i : ℕ) (hn : 1 ≤ n)
    (h : i < values.length) :
    (donchianHigh values n)[i]? =
      some (if n ≤ i then some (listFold max ((values.take i).drop (i - n))) else none) := by
  unfold donchianHigh
  cases i with
  | zero =>
    rw [shift1_getElem?_zero]
    · simp [Nat.not_le.mpr (by omega : 0 < n)]
    · have : (rollingOp (listFold max) n (values.map some)).length = values.length := by
        simp [rollingOp_length]
      exact List.ne_nil_of_length_pos (by omega)
  | succ k =>
    rw [shift1_getElem?_succ _ k (by simp [rollingOp_length]; omega),
      rollingOp_map_some_getElem? _ n values k (by omega)]
    rcases le_or_lt n (k + 1) with hle | hlt
    · rw [if_neg (by omega), if_pos hle]
    · rw [if_pos hlt, if_neg (by omega)]

lemma donchianLow_getElem? (values : List ℚ) (n i : ℕ) (hn : 1 ≤ n)
    (h : i < values.length) :
    (donchianLow values n)[i]? =
      some (if n ≤ i then some (listFold min ((values.take i).drop (i - n))) else none) := by
  unfold donchianLow
  cases i with
  | zero =>
    rw [shift1_getElem?_zero]
    · simp [Nat.not_le.mpr (by omega : 0 < n)]
    · have : (rollingOp (listFold min) n (values.map some)).length = values.length := by
        simp [rollingOp_length]
      exact List.ne_nil_of_length_pos (by omega)
  | succ k =>
    rw [shift1_getElem?_succ _ k (by simp [rollingOp_length]; omega),
      rollingOp_map_some_getElem? _ n values k (by omega)]
    rcases le_or_lt n (k + 1) with hle | hlt
    · rw [if_neg (by omega), if_pos hle]
    · rw [if_pos hlt, if_neg (by omega)]

lemma mem_take_drop_attained {values : List ℚ} {i n : ℕ} {v : ℚ}
    (hv : v ∈ (values.take i).drop (i - n)) : ∃ j, j < i ∧ values[j]? = some v := by
  have hmem : v ∈ values.take i := List.mem_of_mem_drop hv
  obtain ⟨j, hj, hval⟩ := List.mem_iff_getElem.mp hmem
  have hj' : j < i := by
    have := hj
    simp [List.length_take] at this
    omega
  refine ⟨j, hj', ?_⟩
  rw [List.getElem?_eq_getElem (by
    have := hj
    simp [List.length_take] at this
    omega)]
  rw [← hval]
  congr 1
  exact (List.getElem_take ..).symm

/-- C2: while a position is open, the stop is updated on a bar only
when the candidate stop (close - atr * mult for a long, close +
atr * mult for a short) is strictly tighter than the current stop;
consequently the long stop path is monotonically non-decreasing over
bars and the short stop path monotonically non-increasing. -/
theorem c2_trailing_stop_ratchet :
    ∀ (price mult sl : ℚ) (atr : Option ℚ),
      (sl ≤ trailLong price atr mult sl ∧
        (trailLong price atr mult sl ≠ sl →
          ∃ a, atr = some a ∧ sl < price - a * mult ∧
            trailLong price atr mult sl = price - a * mult)) ∧
      (trailShort price atr mult sl ≤ sl ∧
        (trailShort price atr mult sl ≠ sl →
          ∃ a, atr = some a ∧ price + a * mult < sl ∧
            trailShort price atr mult sl = price + a * mult)) ∧
      (∀ (bars : List (ℚ × Option ℚ)) (sl0 : ℚ),
        List.Chain' (· ≤ ·) (stopPathLong mult sl0 bars) ∧
        List.Chain' (· ≥ ·) (stopPathShort mult sl0 bars)) := by
  have hlong : ∀ (price mult sl : ℚ) (atr : Option ℚ), sl ≤ trailLong price atr mult sl := by
    intro price mult sl atr
    cases atr with
    | none => exact le_refl sl
    | some a =>
      by_cases hc : sl < price - a * mult
      · simpa [trailLong, hc] using le_of_lt hc
      · simp [trailLong, hc]
  have hshort : ∀ (price mult sl : ℚ) (atr : Option ℚ), trailShort price atr mult sl ≤ sl := by
    intro price mult sl atr
    cases atr with
    | none => exact le_refl sl
    | some a =>
      by_cases hc : price + a * mult < sl
      · simpa [trailShort, hc] using le_of_lt hc
      · simp [trailShort, hc]
  intro price mult sl atr
  refine ⟨⟨hlong price mult sl atr, ?_⟩, ⟨hshort price mult sl atr, ?_⟩, ?_⟩
  · intro hne
    cases atr with
    | none => simp [trailLong] at hne
    | some a =>
      by_cases hc : sl < price - a * mult
      · exact ⟨a, rfl, hc, by simp [trailLong, hc]⟩
      · simp [trailLong, hc] at hne
  · intro hne
    cases atr with
    | none => simp [trailShort] at hne
    | some a =>
      by_cases hc : price + a * mult < sl
      · exact ⟨a, rfl, hc, by simp [trailShort, hc]⟩
      · simp [trailShort, hc] at hne
  · intro bars sl0
    constructor
    · exact chain_scanl (· ≤ ·) _ (fun s x => hlong x.1 mult s x.2) bars sl0
    · exact chain_scanl (· ≥ ·) _ (fun s x => hshort x.1 mult s x.2) bars sl0

/-- Closed instance of the trailing-stop theorem at concrete values:
the stop never moves down and the concrete chain is monotone. -/
theorem c2_witness :
    (50 : ℚ) ≤ trailLong 100 (some 10) 4 50 ∧
      List.Chain' (· ≤ ·) (stopPathLong 4 50 [(100, some 10), (110, some 10)]) :=
  ⟨(c2_trailing_stop_ratchet 100 4 50 (some 10)).1.1,
    ((c2_trailing_stop_ratchet 100 4 50 (some 10)).2.2 [(100, some 10), (110, some 10)] 50).1⟩

/-- C4 (amended): `optim_func` returns the sentinel -1 whenever the
trade count is below 10 or the drawdown is below -20, regardless of
the return; for a record passing both constraints with nonzero
drawdown it returns return divided by absolute drawdown.  (At exactly
zero drawdown the quotient is a division by zero, see the
counterexample and C10.) -/
theorem c4_objective_accept_reject (s : PerfRecord) :
    ((s.numTrades < 10 ∨ s.maxDrawdownPct < -20) → optim_func s = .ok (-1)) ∧
    (10 ≤ s.numTrades → -20 ≤ s.maxDrawdownPct → s.maxDrawdownPct ≠ 0 →
      optim_func s = .ok (s.returnPct / |s.maxDrawdownPct|)) := by
  constructor
  · intro h
    rcases h with h | h
    · simp [optim_func, h]
    · rw [optim_func]
      by_cases ht : s.numTrades < 10
      · simp [ht]
      · simp [ht, h]
  · intro h1 h2 h3
    rw [optim_func, if_neg (by omega), if_neg (by simp; linarith), if_neg (by simpa using h3)]

/-- Closed instance of the objective: a record with 12 trades, -10
percent drawdown and 50 percent return scores 50 / |-10|. -/
theorem c4_witness :
    optim_func ⟨12, -10, 50⟩ = .ok ((50 : ℚ) / |(-10 : ℚ)|) :=
  (c4_objective_accept_reject ⟨12, -10, 50⟩).2 (by norm_num) (by norm_num) (by norm_num)

/-- Counterexample to C4 as stated: the record with 12 trades, 0
percent drawdown and 50 percent return passes both acceptance
constraints, yet `optim_func` does not return the stated quotient (its
division by zero is undefined). -/
theorem c4_counterexample :
    ¬ ((12 : ℕ) < 10) ∧ ¬ ((0 : ℚ) < -20) ∧
      optim_func ⟨12, 0, 50⟩ ≠ .ok ((50 : ℚ) / |(0 : ℚ)|) := by
  refine ⟨by omega, by norm_num, ?_⟩
  rw [optim_func]
  norm_num
  intro h
  cases h

/-- C10: a performance record that passes both acceptance constraints
but has a max drawdown of exactly 0 percent makes the score
computation divide by zero instead of returning a defined score. -/
theorem c10_zero_drawdown_divides_by_zero (s : PerfRecord)
    (h1 : 10 ≤ s.numTrades) (h2 : s.maxDrawdownPct = 0) :
    optim_func s = .error () := by
  rw [optim_func, if_neg (by omega), if_neg (by rw [h2]; norm_num), if_pos (by rw [h2]; norm_num)]

/-- Closed instance of the zero-drawdown division by zero. -/
theorem c10_witness : optim_func ⟨12, 0, 50⟩ = .error () :=
  c10_zero_drawdown_divides_by_zero ⟨12, 0, 50⟩ (by norm_num) rfl

/-- C6 (amended): for every window n >= 1, `SMA` is undefined for
exactly the first n-1 positions and defined thereafter; the true range
at position 0 is already defined (it degrades to high - low because
the row-wise max skips the undefined previous-close terms), so `ATR`
is likewise undefined for exactly the first n-1 positions, not n. -/
theorem c6_warmup_lengths (n : ℕ) (hn : 1 ≤ n) (values : List ℚ) (bars : List Bar) (i : ℕ) :
    (i < values.length → ((SMA values n)[i]? = some none ↔ i < n - 1)) ∧
    (i < bars.length → ((ATR bars n)[i]? = some none ↔ i < n - 1)) := by
  constructor
  · intro h
    rw [SMA, rollingOp_map_some_getElem? _ n values i h]
    rcases lt_or_le (i + 1) n with hlt | hle
    · simp only [if_pos hlt]
      constructor
      · intro _; omega
      · intro _; trivial
    · simp only [if_neg (by omega : ¬ i + 1 < n)]
      constructor
      · intro hc; simp at hc
      · intro hc; omega
  · intro h
    rw [ATR, rollingOp_map_some_getElem? _ n (trSeries bars) i (by rw [trSeries_length]; exact h)]
    rcases lt_or_le (i + 1) n with hlt | hle
    · simp only [if_pos hlt]
      constructor
      · intro _; omega
      · intro _; trivial
    · simp only [if_neg (by omega : ¬ i + 1 < n)]
      constructor
      · intro hc; simp at hc
      · intro hc; omega

/-- Closed instance of the warm-up theorem: with window 3 and five
bars, SMA and ATR are undefined at position 1 (inside the first n-1
positions). -/
theorem c6_witness :
    (SMA [1, 2, 3, 4, 5] 3)[1]? = some none ∧
      (ATR [⟨2, 1, 1⟩, ⟨3, 2, 2⟩, ⟨4, 3, 3⟩] 3)[1]? = some none :=
  ⟨((c6_warmup_lengths 3 (by norm_num) [1, 2, 3, 4, 5] [] 1).1 (by norm_num)).mpr (by norm_num),
    ((c6_warmup_lengths 3 (by norm_num) [] [⟨2, 1, 1⟩, ⟨3, 2, 2⟩, ⟨4, 3, 3⟩] 1).2
      (by norm_num)).mpr (by norm_num)⟩

/-- Counterexample to C6 as stated: the claim says ATR is undefined
for the first (n - 1) + 1 positions, but with n = 1 the single-bar
series already has a defined ATR at position 0, equal to high - low,
because pandas skips the NaN true-range terms at position 0. -/
theorem c6_counterexample :
    ATR [{ High := 2, Low := 1, Close := 5 }] 1 = [some 1] ∧ (0 : ℕ) < 1 - 1 + 1 := by
  constructor
  · rw [ATR]
    norm_num [trSeries, prevClose, shift1, skipnaMax3, rollingOp, List.range_succ,
      windowAt, seqSome]
  · omega

lemma SMA_undef_iff (values : List ℚ) (n i : ℕ) (hn : 1 ≤ n) (h : i < values.length) :
    ((SMA values n)[i]? = some none ↔ i < n - 1) := by
  rw [SMA, rollingOp_map_some_getElem? _ n values i h]
  rcases lt_or_le (i + 1) n with hlt | hle
  · simp only [if_pos hlt]
    exact ⟨fun _ => by omega, fun _ => trivial⟩
  · simp only [if_neg (by omega : ¬ i + 1 < n)]
    exact ⟨fun hc => by simp at hc, fun hc => by omega⟩

lemma ATR_undef_iff (bars : List Bar) (n i : ℕ) (hn : 1 ≤ n) (h : i < bars.length) :
    ((ATR bars n)[i]? = some none ↔ i < n - 1) := by
  rw [ATR, rollingOp_map_some_getElem? _ n (trSeries bars) i (by rw [trSeries_length]; exact h)]
  rcases lt_or_le (i + 1) n with hlt | hle
  · simp only [if_pos hlt]
    exact ⟨fun _ => by omega, fun _ => trivial⟩
  · simp only [if_neg (by omega : ¬ i + 1 < n)]
    exact ⟨fun hc => by simp at hc, fun hc => by omega⟩

lemma donchianHigh_undef_iff (values : List ℚ) (n i : ℕ) (hn : 1 ≤ n)
    (h : i < values.length) :
    ((donchianHigh values n)[i]? = some none ↔ i < n) := by
  rw [donchianHigh_getElem? values n i hn h]
  rcases le_or_lt n i with hle | hlt
  · simp only [if_pos hle]
    exact ⟨fun hc => by simp at hc, fun hc => by omega⟩
  · simp only [if_neg (by omega : ¬ n ≤ i)]
    exact ⟨fun _ => hlt, fun _ => trivial⟩

lemma adxUp_length (bars : List Bar) : (adxUp bars).length = bars.length := by
  simp [adxUp, shift1_length]

lemma adxDown_length (bars : List Bar) : (adxDown bars).length = bars.length := by
  simp [adxDown, shift1_length]

lemma ATR_length (bars : List Bar) (n : ℕ) : (ATR bars n).length = bars.length := by
  simp [ATR, rollingOp_length, trSeries_length]

lemma adxTrS_length (bars : List Bar) (n : ℕ) : (adxTrS bars n).length = bars.length := by
  simp [adxTrS, rollingOp_length, ATR_length]

lemma adxTrS_undef (bars : List Bar) (n j : ℕ) (h : j < bars.length) (hj : j + 1 < n) :
    (adxTrS bars n)[j]? = some none := by
  rw [adxTrS, rollingOp_getElem? _ n _ j (by rw [ATR_length]; exact h)]
  simp [hj]

lemma adxPosDi_length (bars : List Bar) (n : ℕ) : (adxPosDi bars n).length = bars.length := by
  simp [adxPosDi, rollingOp_length, adxTrS_length, adxUp_length, adxDown_length]

lemma adxNegDi_length (bars : List Bar) (n : ℕ) : (adxNegDi bars n).length = bars.length := by
  simp [adxNegDi, rollingOp_length, adxTrS_length, adxUp_length, adxDown_length]

lemma adxPosDi_undef (bars : List Bar) (n j : ℕ) (h : j < bars.length) (hj : j + 1 < n) :
    (adxPosDi bars n)[j]? = some none := by
  rw [adxPosDi, List.getElem?_zipWith, adxTrS_undef bars n j h hj,
    rollingOp_getElem? _ n _ j
      (by simp [adxUp_length, adxDown_length]; omega)]
  simp [optDiv]

lemma adxNegDi_undef (bars : List Bar) (n j : ℕ) (h : j < bars.length) (hj : j + 1 < n) :
    (adxNegDi bars n)[j]? = some none := by
  rw [adxNegDi, List.getElem?_zipWith, adxTrS_undef bars n j h hj,
    rollingOp_getElem? _ n _ j
      (by simp [adxUp_length, adxDown_length]; omega)]
  simp [optDiv]

lemma adxDx_length (bars : List Bar) (n : ℕ) : (adxDx bars n).length = bars.length := by
  simp [adxDx, adxPosDi_length, adxNegDi_length]

lemma adxDx_undef (bars : List Bar) (n j : ℕ) (h : j < bars.length) (hj : j + 1 < n) :
    (adxDx bars n)[j]? = some none := by
  rw [adxDx, List.getElem?_zipWith, adxPosDi_undef bars n j h hj,
    adxNegDi_undef bars n j h hj]
  simp [optSub, optAbs, optAdd, optDiv]

lemma ADX_warmup (bars : List Bar) (n i : ℕ) (hn2 : 2 ≤ n) (hi : i < bars.length)
    (h : i < 2 * n - 2) : (ADX bars n)[i]? = some none := by
  rw [ADX]
  exact rollingOp_none_of _ n _ i (min i (n - 2))
    (by rw [adxDx_length]; exact hi)
    (by omega)
    (by omega)
    (adxDx_undef bars n (min i (n - 2)) (by omega) (by omega))

lemma donchian_window_ne_nil {values : List ℚ} {n i : ℕ} (hn : 1 ≤ n) (hni : n ≤ i)
    (h : i < values.length) : (values.take i).drop (i - n) ≠ [] := by
  intro hc
  have hlen := congrArg List.length hc
  simp [List.length_take] at hlen
  omega

/-- C5: for every window n >= 1 the breakout channel value consulted
at bar i is computed only from bars strictly before i (two series that
agree before i give the same channel value at i), and every defined
channel value is attained at some bar j < i; in particular a bar whose
high exceeds every earlier value sees a channel value strictly below
its own high, so its own high is never part of its own breakout test. -/
theorem c5_no_lookahead_breakout_channel (n : ℕ) (hn : 1 ≤ n) (xs ys : List ℚ) (i : ℕ)
    (hx : i < xs.length) (hy : i < ys.length) :
    (xs.take i = ys.take i →
      (donchianHigh xs n)[i]? = (donchianHigh ys n)[i]? ∧
      (donchianLow xs n)[i]? = (donchianLow ys n)[i]?) ∧
    (∀ v, (donchianHigh xs n)[i]? = some (some v) → ∃ j, j < i ∧ xs[j]? = some v) ∧
    (∀ v, (donchianLow xs n)[i]? = some (some v) → ∃ j, j < i ∧ xs[j]? = some v) ∧
    ((∀ j w, j < i → xs[j]? = some w → w < xs.get ⟨i, hx⟩) →
      ∀ v, (donchianHigh xs n)[i]? = some (some v) → v < xs.get ⟨i, hx⟩) := by
  have hhigh : ∀ v, (donchianHigh xs n)[i]? = some (some v) → ∃ j, j < i ∧ xs[j]? = some v := by
    intro v hv
    rw [donchianHigh_getElem? xs n i hn hx] at hv
    rcases le_or_lt n i with hle | hlt
    · rw [if_pos hle] at hv
      have hveq : listFold max ((xs.take i).drop (i - n)) = v := by
        simpa using hv
      rcases hw : (xs.take i).drop (i - n) with _ | ⟨h0, t⟩
      · exact absurd hw (donchian_window_ne_nil hn hle hx)
      · have hmem := listFold_mem max max_choice h0 t
        rw [← hw] at hmem
        rw [hveq] at hmem
        exact mem_take_drop_attained hmem
    · rw [if_neg (by omega)] at hv
      simp at hv
  constructor
  · intro htake
    constructor
    · rw [donchianHigh_getElem? xs n i hn hx, donchianHigh_getElem? ys n i hn hy, htake]
    · rw [donchianLow_getElem? xs n i hn hx, donchianLow_getElem? ys n i hn hy, htake]
  refine ⟨hhigh, ?_, ?_⟩
  · intro v hv
    rw [donchianLow_getElem? xs n i hn hx] at hv
    rcases le_or_lt n i with hle | hlt
    · rw [if_pos hle] at hv
      have hveq : listFold min ((xs.take i).drop (i - n)) = v := by
        simpa using hv
      rcases hw : (xs.take i).drop (i - n) with _ | ⟨h0, t⟩
      · exact absurd hw (donchian_window_ne_nil hn hle hx)
      · have hmem := listFold_mem min min_choice h0 t
        rw [← hw] at hmem
        rw [hveq] at hmem
        exact mem_take_drop_attained hmem
    · rw [if_neg (by omega)] at hv
      simp at hv
  · intro hmax v hv
    obtain ⟨j, hj, hval⟩ := hhigh v hv
    exact hmax j v hj hval

/-- Closed instance of the no-look-ahead property: two four-bar series
agreeing on the first three values give the same channel value at bar
3, and that value is attained strictly before bar 3. -/
theorem c5_witness :
    (donchianHigh [1, 2, 3, 5] 2)[3]? = (donchianHigh [1, 2, 3, 7] 2)[3]? ∧
      ∃ j, j < 3 ∧ ([1, 2, 3, 5] : List ℚ)[j]? = some ((3 : ℚ) ⊔ 2 ⊔ 3) := by
  constructor
  · exact ((c5_no_lookahead_breakout_channel 2 (by norm_num) [1, 2, 3, 5] [1, 2, 3, 7] 3
      (by norm_num) (by norm_num)).1 rfl).1
  · refine (c5_no_lookahead_breakout_channel 2 (by norm_num) [1, 2, 3, 5] [1, 2, 3, 7] 3
      (by norm_num) (by norm_num)).2.1 ((3 : ℚ) ⊔ 2 ⊔ 3) ?_
    rw [donchianHigh_getElem? [1, 2, 3, 5] 2 3 (by norm_num) (by norm_num)]
    norm_num [listFold]

/-- C7: the engine skips all entry and stop logic below the warm-up
guard, additionally skips any bar with an undefined trend filter, and
for the configured parameter families (ATR window at most the larger
of the trend and channel windows, which is at least 22, as in both
source classes and the whole optimization grid) the guard threshold
equals the maximum configured indicator window plus the fixed margin
5, a bar count past the warm-up of every indicator in use: trend
filter, ATR and both Donchian channels are then defined, and the bar
index is past the ADX warm-up region (its first 2n-2 positions, which
are always undefined). -/
theorem c7_warmup_guard (p : Params) (hna : p.n_atr ≤ max p.ma_period p.donchian_period)
    (hm : 22 ≤ max p.ma_period p.donchian_period) (hma1 : 1 ≤ p.ma_period)
    (hd1 : 1 ≤ p.donchian_period) (ha1 : 1 ≤ p.n_atr) :
    (∀ (guard dataLen : ℕ) (ma adx atr dh dl : Option ℚ) (price equity : ℚ)
        (flat : Bool) (trades : List Trade), dataLen < guard →
      nextStep guard p dataLen ma adx atr dh dl price equity flat trades = .ok (none, trades)) ∧
    (∀ (guard dataLen : ℕ) (adx atr dh dl : Option ℚ) (price equity : ℚ)
        (flat : Bool) (trades : List Trade),
      nextStep guard p dataLen none adx atr dh dl price equity flat trades = .ok (none, trades)) ∧
    riskGuard p = (configuredWindows p).foldr max 0 + 5 ∧
    (p.donchian_period ≤ p.ma_period → finalGuard p = (configuredWindows p).foldr max 0 + 5) ∧
    (∀ (closes : List ℚ) (bars : List Bar) (i : ℕ),
      riskGuard p ≤ i + 1 → i < closes.length → i < bars.length →
      (SMA closes p.ma_period)[i]? ≠ some none ∧
      (ATR bars p.n_atr)[i]? ≠ some none ∧
      (donchianHigh closes p.donchian_period)[i]? ≠ some none ∧
      (donchianLow closes p.donchian_period)[i]? ≠ some none ∧
      2 * 14 - 2 ≤ i ∧
      (∀ j, j < 2 * 14 - 2 → j < bars.length → (ADX bars 14)[j]? = some none)) := by
  refine ⟨?_, ?_, ?_, ?_, ?_⟩
  · intro guard dataLen ma adx atr dh dl price equity flat trades h
    simp [nextStep, h]
  · intro guard dataLen adx atr dh dl price equity flat trades
    by_cases hg : dataLen < guard <;> simp [nextStep, hg]
  · simp only [riskGuard, configuredWindows, List.foldr]
    omega
  · intro hdm
    simp only [finalGuard, configuredWindows, List.foldr]
    omega
  · intro closes bars i hguard hc hb
    have hri : max p.ma_period p.donchian_period + 5 ≤ i + 1 := by
      simpa [riskGuard] using hguard
    refine ⟨?_, ?_, ?_, ?_, by omega, ?_⟩
    · intro hc'
      have := (SMA_undef_iff closes p.ma_period i hma1 hc).mp hc'
      omega
    · intro hc'
      have := (ATR_undef_iff bars p.n_atr i ha1 hb).mp hc'
      omega
    · intro hc'
      have := (donchianHigh_undef_iff closes p.donchian_period i hd1 hc).mp hc'
      omega
    · intro hc'
      rw [donchianLow_getElem? closes p.donchian_period i hd1 hc,
        if_pos (by omega : p.donchian_period ≤ i)] at hc'
      simp at hc'
    · intro j hj hjb
      exact ADX_warmup bars 14 j (by norm_num) hjb (by omega)

/-- Closed instance of the guard theorem at the default parameters of
`RiskManagedStrategy`: the guard equals the largest configured window
plus 5, and a bar count below it produces no order and leaves the
trades untouched. -/
theorem c7_witness :
    riskGuard ⟨14, 4, 200, 50, 25, 2 / 100⟩ =
        (configuredWindows ⟨14, 4, 200, 50, 25, 2 / 100⟩).foldr max 0 + 5 ∧
      nextStep (riskGuard ⟨14, 4, 200, 50, 25, 2 / 100⟩) ⟨14, 4, 200, 50, 25, 2 / 100⟩ 100
          (some 1) none none none none 100 1000 true [] = .ok (none, []) :=
  ⟨(c7_warmup_guard ⟨14, 4, 200, 50, 25, 2 / 100⟩ (by norm_num) (by norm_num) (by norm_num)
      (by norm_num) (by norm_num)).2.2.1,
    (c7_warmup_guard ⟨14, 4, 200, 50, 25, 2 / 100⟩ (by norm_num) (by norm_num) (by norm_num)
      (by norm_num) (by norm_num)).1 _ 100 (some 1) none none none none 100 1000 true []
      (by norm_num [riskGuard])⟩

lemma nextStep_flat (guard : ℕ) (p : Params) (dataLen : ℕ) (m : ℚ)
    (adx atr dh dl : Option ℚ) (price equity : ℚ) (trades : List Trade)
    (hg : ¬ dataLen < guard) :
    nextStep guard p dataLen (some m) adx atr dh dl price equity true trades =
      match flatEval p atr dh dl price equity (pyGtSome price (some m))
          (pyLtSome p.adx_threshold adx) with
      | .error e => .error e
      | .ok .ret => .ok (none, trades)
      | .ok (.through o) => .ok (o, trades.map (trailTrade price atr p.atr_multiplier)) := by
  simp [nextStep, hg]

lemma flatEval_nan (p : Params) (dh dl : Option ℚ) (price equity : ℚ)
    (uptrend strong : Bool) :
    flatEval p none dh dl price equity uptrend strong = .error () := by
  simp [flatEval]

lemma flatEval_zero_sd (p : Params) (a : ℚ) (dh dl : Option ℚ) (price equity : ℚ)
    (uptrend strong : Bool) (hz : a * p.atr_multiplier = 0) :
    flatEval p (some a) dh dl price equity uptrend strong = .ok .ret := by
  simp [flatEval, hz]

lemma flatEval_small_units (p : Params) (a : ℚ) (dh dl : Option ℚ) (price equity : ℚ)
    (uptrend strong : Bool) (hz : a * p.atr_multiplier ≠ 0)
    (hu : entryUnits equity p.risk_per_trade (a * p.atr_multiplier) price < 1) :
    flatEval p (some a) dh dl price equity uptrend strong = .ok .ret := by
  simp [flatEval, hz, hu]

/-- C1: in the FLAT state with nonnegative equity and risk fraction
and positive stop distance and price, the size is the floor of
equity times risk over stop distance (truncation equals floor here),
capped afterwards by the capital ceiling via a minimum, so the cap is
never exceeded; and whenever the resulting size is below 1 the step
emits no order and changes nothing. -/
theorem c1_risk_based_sizing (E r d p : ℚ) (hE : 0 ≤ E) (hr : 0 ≤ r) (hd : 0 < d)
    (hp : 0 < p) :
    entryUnits E r d p = min ⌊E * r / d⌋ ⌊E * (95 / 100) / p⌋ ∧
    entryUnits E r d p ≤ ⌊E * (95 / 100) / p⌋ ∧
    (∀ (guard : ℕ) (cfg : Params) (dataLen : ℕ) (ma adx dh dl : Option ℚ) (a : ℚ)
        (trades : List Trade),
      cfg.risk_per_trade = r → a * cfg.atr_multiplier = d →
      entryUnits E r d p < 1 →
      nextStep guard cfg dataLen ma adx (some a) dh dl p E true trades = .ok (none, trades)) := by
  have hcap : (0 : ℚ) ≤ E * (95 / 100) / p :=
    div_nonneg (mul_nonneg hE (by norm_num)) hp.le
  have hrisk : (0 : ℚ) ≤ E * r / d := div_nonneg (mul_nonneg hE hr) hd.le
  have hmin : entryUnits E r d p = min ⌊E * r / d⌋ ⌊E * (95 / 100) / p⌋ := by
    rw [entryUnits, pyInt_eq_floor _ hrisk, pyInt_eq_floor _ hcap]
  refine ⟨hmin, by rw [hmin]; exact min_le_right _ _, ?_⟩
  intro guard cfg dataLen ma adx dh dl a trades hcfg hmult hu
  by_cases hg : dataLen < guard
  · simp [nextStep, hg]
  cases ma with
  | none => simp [nextStep, hg]
  | some m =>
    rw [nextStep_flat guard cfg dataLen m adx (some a) dh dl p E trades hg,
      flatEval_small_units cfg a dh dl p E _ _ (by rw [hmult]; exact hd.ne')
        (by rw [hmult, hcfg]; exact hu)]

/-- Closed instance of the sizing theorem: tiny equity makes the size
0 and the step is a no-op. -/
theorem c1_witness :
    entryUnits 100 (1 / 100) 50 10 < 1 ∧
      nextStep 0 ⟨14, 4, 800, 100, 25, 1 / 100⟩ 10 (some 1) none (some (25 / 2)) none none
          10 100 true [] = .ok (none, []) := by
  have hu : entryUnits 100 (1 / 100) 50 10 < 1 := by
    norm_num [entryUnits, pyInt]
    decide
  exact ⟨hu, (c1_risk_based_sizing 100 (1 / 100) 50 10 (by norm_num) (by norm_num)
    (by norm_num) (by norm_num)).2.2 0 ⟨14, 4, 800, 100, 25, 1 / 100⟩ 10 (some 1) none
    none none (25 / 2) [] rfl (by norm_num) hu⟩

/-- C3 (amended): a nonpositive stop distance suppresses entry with no
error (zero hits the explicit gate, negative makes the size fall below
1), but a NaN ATR is not covered by the `== 0` gate: the integer size
conversion then raises, so the step errors instead of silently
skipping; in neither case is an entry order emitted. -/
theorem c3_degenerate_stop_distance (cfg : Params) (guard dataLen : ℕ)
    (ma adx dh dl : Option ℚ) (price E : ℚ) (trades : List Trade)
    (hE : 0 ≤ E) (hr : 0 ≤ cfg.risk_per_trade) (hp : 0 < price) :
    (∀ a : ℚ, a * cfg.atr_multiplier ≤ 0 →
      nextStep guard cfg dataLen ma adx (some a) dh dl price E true trades =
        .ok (none, trades)) ∧
    (ma.isSome → ¬ dataLen < guard →
      nextStep guard cfg dataLen ma adx none dh dl price E true trades = .error ()) := by
  constructor
  · intro a hle
    by_cases hg : dataLen < guard
    · simp [nextStep, hg]
    cases ma with
    | none => simp [nextStep, hg]
    | some m =>
      rw [nextStep_flat guard cfg dataLen m adx (some a) dh dl price E trades hg]
      by_cases hz : a * cfg.atr_multiplier = 0
      · rw [flatEval_zero_sd cfg a dh dl price E _ _ hz]
      · have hneg : a * cfg.atr_multiplier < 0 := lt_of_le_of_ne hle hz
        have hq : E * cfg.risk_per_trade / (a * cfg.atr_multiplier) ≤ 0 :=
          div_nonpos_of_nonneg_of_nonpos (mul_nonneg hE hr) hneg.le
        have hu : entryUnits E cfg.risk_per_trade (a * cfg.atr_multiplier) price < 1 := by
          have h1 : pyInt (E * cfg.risk_per_trade / (a * cfg.atr_multiplier)) ≤ 0 :=
            pyInt_nonpos _ hq
          have h2 := min_le_left
            (pyInt (E * cfg.risk_per_trade / (a * cfg.atr_multiplier)))
            (pyInt (E * (95 / 100) / price))
          rw [entryUnits]
          omega
        rw [flatEval_small_units cfg a dh dl price E _ _ hz hu]
  · intro hma hg
    obtain ⟨m, rfl⟩ := Option.isSome_iff_exists.mp hma
    rw [nextStep_flat guard cfg dataLen m adx none dh dl price E trades hg,
      flatEval_nan]

/-- Closed instance of the degenerate-stop theorem: a negative stop
distance gives a silent no-op, a NaN ATR gives an error. -/
theorem c3_witness :
    nextStep 5 ⟨14, 4, 800, 100, 25, 1 / 100⟩ 1000 (some 50) (some 30) (some (-5)) (some 90)
        (some 0) 100 1000 true [] = .ok (none, []) ∧
      nextStep 5 ⟨14, 4, 800, 100, 25, 1 / 100⟩ 1000 (some 50) (some 30) none (some 90)
        (some 0) 100 1000 true [] = .error () :=
  ⟨(c3_degenerate_stop_distance ⟨14, 4, 800, 100, 25, 1 / 100⟩ 5 1000 (some 50) (some 30)
      (some 90) (some 0) 100 1000 [] (by norm_num) (by norm_num) (by norm_num)).1 (-5)
      (by norm_num),
    (c3_degenerate_stop_distance ⟨14, 4, 800, 100, 25, 1 / 100⟩ 5 1000 (some 50) (some 30)
      (some 90) (some 0) 100 1000 [] (by norm_num) (by norm_num) (by norm_num)).2
      (by simp) (by omega)⟩

/-- Counterexample to C3 as stated: with an undefined (NaN) ATR on a
bar in the FLAT state that passes the warm-up and trend-filter guards,
the engine raises (Python: `int(nan)` is a `ValueError`) instead of
skipping without error. -/
theorem c3_counterexample :
    nextStep 0 ⟨14, 4, 800, 100, 25, 1 / 100⟩ 1000 (some 50) (some 30) none (some 90)
      (some 0) 100 10000000 true [] = .error () := by
  rw [nextStep_flat 0 ⟨14, 4, 800, 100, 25, 1 / 100⟩ 1000 50 (some 30) none (some 90)
    (some 0) 100 10000000 [] (by omega), flatEval_nan]

/-- C8 (amended): with the capital cap binding on neither run, the
sizes of the 1 percent and 2 percent runs satisfy
2 * u1 <= u2 <= 2 * u1 + 1: the pre-truncation risk sizes stand in
exactly the ratio 1:2, but integer truncation can make the emitted
sizes differ from that ratio by one unit (and does, see the
counterexample). -/
theorem c8_risk_ratio_up_to_truncation (E d p : ℚ) (hE : 0 ≤ E) (hd : 0 < d) (hp : 0 < p)
    (hcap : ⌊E * (2 / 100) / d⌋ ≤ pyInt (E * (95 / 100) / p)) :
    2 * entryUnits E (1 / 100) d p ≤ entryUnits E (2 / 100) d p ∧
    entryUnits E (2 / 100) d p ≤ 2 * entryUnits E (1 / 100) d p + 1 := by
  have hx0 : 0 ≤ E * (1 / 100) / d := div_nonneg (mul_nonneg hE (by norm_num)) hd.le
  have h2x : E * (2 / 100) / d = 2 * (E * (1 / 100) / d) := by ring
  have h2x0 : 0 ≤ E * (2 / 100) / d := div_nonneg (mul_nonneg hE (by norm_num)) hd.le
  have hu2 : entryUnits E (2 / 100) d p = ⌊2 * (E * (1 / 100) / d)⌋ := by
    rw [entryUnits, pyInt_eq_floor _ h2x0, min_eq_left hcap, h2x]
  have hu1 : entryUnits E (1 / 100) d p = ⌊E * (1 / 100) / d⌋ := by
    rw [entryUnits, pyInt_eq_floor _ hx0]
    have hmono : ⌊E * (1 / 100) / d⌋ ≤ ⌊E * (2 / 100) / d⌋ :=
      Int.floor_le_floor (by rw [h2x]; linarith)
    exact min_eq_left (le_trans hmono hcap)
  constructor
  · rw [hu1, hu2]
    refine Int.le_floor.mpr ?_
    push_cast
    have := Int.floor_le (E * (1 / 100) / d)
    linarith
  · rw [hu1, hu2]
    have h2 : ⌊2 * (E * (1 / 100) / d)⌋ < 2 * ⌊E * (1 / 100) / d⌋ + 2 := by
      refine Int.floor_lt.mpr ?_
      push_cast
      have := Int.lt_floor_add_one (E * (1 / 100) / d)
      linarith
    omega

/-- Closed instance of the truncation-ratio bounds at the inputs of
the counterexample: the sizes 1 and 3 obey 2 <= 3 <= 3. -/
theorem c8_witness :
    2 * entryUnits 10000000 (1 / 100) (200000 / 3) 100 ≤
        entryUnits 10000000 (2 / 100) (200000 / 3) 100 ∧
      entryUnits 10000000 (2 / 100) (200000 / 3) 100 ≤
        2 * entryUnits 10000000 (1 / 100) (200000 / 3) 100 + 1 :=
  c8_risk_ratio_up_to_truncation 10000000 (200000 / 3) 100 (by norm_num) (by norm_num)
    (by norm_num) (by norm_num [pyInt])

/-- Counterexample to C8 as stated: on the same bar (equity 10000000,
stop distance 200000/3, price 100, cap 95000 binding on neither run)
the 1 percent run buys 1 unit while the 2 percent run buys 3 units
because floor(1.5) = 1 and floor(3) = 3: the emitted sizes are not in
the ratio 1:2. -/
theorem c8_counterexample :
    nextStep 0 ⟨14, 4, 200, 50, 25, 1 / 100⟩ 1000 (some 50) (some 30) (some (50000 / 3))
        (some 90) (some 0) 100 10000000 true [] =
      .ok (some { is_buy := true, size := 1, sl := 100 - 50000 / 3 * 4 }, []) ∧
    nextStep 0 ⟨14, 4, 200, 50, 25, 2 / 100⟩ 1000 (some 50) (some 30) (some (50000 / 3))
        (some 90) (some 0) 100 10000000 true [] =
      .ok (some { is_buy := true, size := 3, sl := 100 - 50000 / 3 * 4 }, []) ∧
    (3 : ℤ) ≠ 2 * 1 := by
  refine ⟨?_, ?_, by omega⟩
  · rw [nextStep_flat 0 ⟨14, 4, 200, 50, 25, 1 / 100⟩ 1000 50 (some 30) (some (50000 / 3))
      (some 90) (some 0) 100 10000000 [] (by omega)]
    norm_num [flatEval, pyGtSome, pyLtSome]
    rw [show entryUnits 10000000 (1 / 100) (200000 / 3) 100 = 1 by
      norm_num [entryUnits, pyInt] <;> decide]
    norm_num
  · rw [nextStep_flat 0 ⟨14, 4, 200, 50, 25, 2 / 100⟩ 1000 50 (some 30) (some (50000 / 3))
      (some 90) (some 0) 100 10000000 [] (by omega)]
    norm_num [flatEval, pyGtSome, pyLtSome]
    rw [show entryUnits 10000000 (1 / 50) (200000 / 3) 100 = 3 by
      norm_num [entryUnits, pyInt] <;> decide]
    norm_num

lemma rankLE_trans : ∀ a b c : ℕ × ℚ, rankLE a b = true → rankLE b c = true →
    rankLE a c = true := by
  intro a b c hab hbc
  simp only [rankLE, decide_eq_true_eq] at hab hbc ⊢
  rcases hab with h1 | ⟨h1, h2⟩ <;> rcases hbc with h3 | ⟨h3, h4⟩
  · exact Or.inl (lt_trans h3 h1)
  · exact Or.inl (h3 ▸ h1)
  · exact Or.inl (by rw [h1]; exact h3)
  · exact Or.inr ⟨by rw [h1, h3], le_trans h2 h4⟩

lemma rankLE_total : ∀ a b : ℕ × ℚ, (rankLE a b || rankLE b a) = true := by
  intro a b
  simp only [rankLE, Bool.or_eq_true, decide_eq_true_eq]
  rcases lt_trichotomy a.2 b.2 with h | h | h
  · exact Or.inr (Or.inl h)
  · rcases le_total a.1 b.1 with h2 | h2
    · exact Or.inl (Or.inr ⟨h, h2⟩)
    · exact Or.inr (Or.inr ⟨h.symm, h2⟩)
  · exact Or.inl (Or.inl h)

lemma optimRank_fst_nodup (scores : List ℚ) :
    ((optimRank scores).map Prod.fst).Nodup := by
  have hperm : ((optimRank scores).map Prod.fst).Perm (scores.enum.map Prod.fst) :=
    (List.mergeSort_perm scores.enum rankLE).map Prod.fst
  rw [List.enum_map_fst] at hperm
  exact hperm.nodup_iff.mpr (List.nodup_range _)

/-- C9 (spec-modelled): for identical inputs the ranking output is
identical; the ranking is a permutation of the grid-indexed scores,
descending in score, and equal scores keep the grid enumeration
order (earlier grid index strictly first); and the grid itself is the
72-point Cartesian product of the literal candidate lists in a fixed
enumeration order. -/
theorem c9_optimizer_determinism_stable_sort (scores : List ℚ) :
    (∀ scores2, scores = scores2 → optimRank scores = optimRank scores2) ∧
    (optimRank scores).Perm scores.enum ∧
    (∀ i j (hi : i < (optimRank scores).length) (hj : j < (optimRank scores).length),
      i < j →
        ((optimRank scores).get ⟨j, hj⟩).2 ≤ ((optimRank scores).get ⟨i, hi⟩).2 ∧
        (((optimRank scores).get ⟨i, hi⟩).2 = ((optimRank scores).get ⟨j, hj⟩).2 →
          ((optimRank scores).get ⟨i, hi⟩).1 < ((optimRank scores).get ⟨j, hj⟩).1)) ∧
    gridConfigs.length = 72 := by
  have hsorted : List.Pairwise (fun a b => rankLE a b = true) (optimRank scores) :=
    List.sorted_mergeSort rankLE_trans rankLE_total scores.enum
  refine ⟨fun s2 h => by rw [h], List.mergeSort_perm scores.enum rankLE, ?_, by rfl⟩
  intro i j hi hj hij
  have hpair : rankLE ((optimRank scores).get ⟨i, hi⟩) ((optimRank scores).get ⟨j, hj⟩)
      = true := List.pairwise_iff_get.mp hsorted ⟨i, hi⟩ ⟨j, hj⟩ hij
  simp only [rankLE, decide_eq_true_eq] at hpair
  have hne : ((optimRank scores).get ⟨i, hi⟩).1 ≠ ((optimRank scores).get ⟨j, hj⟩).1 := by
    intro hc
    have hnodup := optimRank_fst_nodup scores
    have hget := List.pairwise_iff_get.mp hnodup ⟨i, by simpa using hi⟩
      ⟨j, by simpa using hj⟩ hij
    exact hget (by simpa [List.get_eq_getElem, List.getElem_map] using hc)
  constructor
  · rcases hpair with h | ⟨h, _⟩
    · exact le_of_lt h
    · exact le_of_eq h.symm
  · intro heq
    rcases hpair with h | ⟨_, h2⟩
    · exact absurd heq (ne_of_gt h)
    · exact lt_of_le_of_ne h2 hne

/-- Closed instance of the ranking theorem: the ranking of two tied
scores is a permutation of their indexed list. -/
theorem c9_witness : (optimRank [7, 7]).Perm (([7, 7] : List ℚ).enum) :=
  (c9_optimizer_determinism_stable_sort [7, 7]).2.1
